import Mathlib

/-!
# Verification of `pull_relay_data.py` (tor-relay-data)

Shallow embedding of the archive-consensus pipeline of
`src/pull_relay_data.py`:

* `b64_to_hex` (lines 87-92) — base64 identity to uppercase hex fingerprint,
* `parse_consensus` (lines 94-141) — line fold with a pending-fingerprint slot,
* `build_panel` (lines 143-167) — per-day mapping accumulation and the
  intersection of key sets,
* `write_csv` (lines 169-182) — row emission restricted to the common set,
* `fetch_consensus` (lines 75-85) — hour-fallback loop,
* `main` (lines 194-218) — exit codes and the no-output-on-failure behavior.

Network and file I/O (`fetch_from_month_tar`, the actual CSV file write) are
abstracted as oracles / returned row lists; everything else follows the
Python source line by line.  Python built-ins used by the source
(`str.split`, `str.splitlines`, `int`, `base64.b64decode`,
`base64.b64encode`, `bytes.hex`, `bytes.fromhex`) are modelled below on
`List Char` / `Nat`; the models cover the fragments the source can reach
(ASCII separators, sign + decimal digits with underscores, alphabet
characters with trailing padding).
-/

/-- Characters Python's `str.split()` (no argument) treats as separators
(ASCII fragment of the Python whitespace set). -/
def pyWhitespace (c : Char) : Bool :=
  c == ' ' || c == '\t' || c == '\n' || c == '\r' || c == '\x0b' || c == '\x0c'

/-- Splitting accumulator: cut at every separator character, keeping empty
pieces (they are filtered afterwards, as Python's `split()` drops them). -/
def pySplitAux (p : Char → Bool) : List Char → List Char → List (List Char)
  | [], acc => [acc.reverse]
  | c :: rest, acc =>
    if p c then acc.reverse :: pySplitAux p rest []
    else pySplitAux p rest (c :: acc)

/-- Model of Python `s.split()`: split on whitespace runs, no empty tokens. -/
def pySplit (s : String) : List String :=
  ((pySplitAux pyWhitespace s.toList []).filter (fun cs => !cs.isEmpty)).map
    (fun cs => String.mk cs)

/-- Model of Python `s.startswith(pre)`. -/
def pyStartsWith (s pre : String) : Bool :=
  pre.toList.isPrefixOf s.toList

/-- Model of Python `s.splitlines()` on the terminators `\n`, `\r\n`, `\r`
(the ones a consensus document can contain); no trailing empty line. -/
def pySplitlinesAux : List Char → List Char → List (List Char)
  | [], acc => if acc.isEmpty then [] else [acc.reverse]
  | '\r' :: '\n' :: rest, acc => acc.reverse :: pySplitlinesAux rest []
  | '\r' :: rest, acc => acc.reverse :: pySplitlinesAux rest []
  | '\n' :: rest, acc => acc.reverse :: pySplitlinesAux rest []
  | c :: rest, acc => pySplitlinesAux rest (c :: acc)

def pySplitlines (s : String) : List String :=
  (pySplitlinesAux s.toList []).map (fun cs => String.mk cs)

/-- After the first digit, Python `int()` accepts digits with single
underscores strictly between digits. -/
def pyDigitsOk : List Char → Bool
  | [] => true
  | '_' :: c :: rest => c.isDigit && pyDigitsOk (c :: rest)
  | c :: rest => c.isDigit && pyDigitsOk rest

/-- A valid unsigned body for Python `int()`: a leading digit, then
digits/underscores per `pyDigitsOk`. -/
def pyIntBody : List Char → Bool
  | [] => false
  | c :: rest => c.isDigit && pyDigitsOk rest

def digitsToNat (cs : List Char) : Nat :=
  (cs.filter (fun c => c != '_')).foldl (fun a c => a * 10 + (c.toNat - 48)) 0

/-- Model of Python `int(s)` (sign + decimal digits fragment; the source only
feeds it whitespace-free tokens).  `none` models the `ValueError`. -/
def pyInt (s : String) : Option Int :=
  match s.toList with
  | '+' :: rest => if pyIntBody rest then some (Int.ofNat (digitsToNat rest)) else none
  | '-' :: rest => if pyIntBody rest then some (-Int.ofNat (digitsToNat rest)) else none
  | cs => if pyIntBody cs then some (Int.ofNat (digitsToNat cs)) else none

/-- Standard base64 alphabet value of a character. -/
def b64Val (c : Char) : Option Nat :=
  if 65 ≤ c.toNat ∧ c.toNat ≤ 90 then some (c.toNat - 65)
  else if 97 ≤ c.toNat ∧ c.toNat ≤ 122 then some (c.toNat - 97 + 26)
  else if 48 ≤ c.toNat ∧ c.toNat ≤ 57 then some (c.toNat - 48 + 52)
  else if c.toNat = 43 then some 62
  else if c.toNat = 47 then some 63
  else none

/-- Recombine 6-bit values into bytes; a single leftover value is the
`binascii.Error` case of Python (`none`).  Leftovers of two or three values
are the (stripped) `==` / `=` padding cases. -/
def b64DecodeVals : List Nat → Option (List Nat)
  | [] => some []
  | [_] => none
  | [a, b] => some [a * 4 + b / 16]
  | [a, b, c] => some [a * 4 + b / 16, b % 16 * 16 + c / 4]
  | a :: b :: c :: d :: rest =>
    (b64DecodeVals rest).map
      (fun t => (a * 4 + b / 16) :: (b % 16 * 16 + c / 4) :: (c % 4 * 64 + d) :: t)

/-- Model of Python `base64.b64decode` on alphabet characters with trailing
`=` padding: stop at the first `=`, drop non-alphabet characters
(`validate=False`), recombine the 6-bit groups. -/
def pyB64Decode (s : String) : Option (List Nat) :=
  b64DecodeVals ((s.toList.takeWhile (fun c => c != '=')).filterMap b64Val)

/-- Standard base64 alphabet character of a 6-bit value. -/
def b64Chr (v : Nat) : Char :=
  if v < 26 then Char.ofNat (65 + v)
  else if v < 52 then Char.ofNat (97 + (v - 26))
  else if v < 62 then Char.ofNat (48 + (v - 52))
  else if v = 62 then '+'
  else '/'

/-- Model of Python `base64.b64encode`: three bytes at a time, `=` padding. -/
def b64encodeChars : List Nat → List Char
  | [] => []
  | [a] => [b64Chr (a / 4), b64Chr (a % 4 * 16), '=', '=']
  | [a, b] => [b64Chr (a / 4), b64Chr (a % 4 * 16 + b / 16), b64Chr (b % 16 * 4), '=']
  | a :: b :: c :: rest =>
    b64Chr (a / 4) :: b64Chr (a % 4 * 16 + b / 16) :: b64Chr (b % 16 * 4 + c / 64) ::
      b64Chr (c % 64) :: b64encodeChars rest

def b64encode (bs : List Nat) : String := String.mk (b64encodeChars bs)

/-- Uppercase hexadecimal digit (what `bytes.hex().upper()` produces). -/
def hexDig (n : Nat) : Char :=
  if n < 10 then Char.ofNat (48 + n) else Char.ofNat (65 + (n - 10))

/-- Model of Python `raw.hex().upper()`: two hex digits per byte. -/
def hexUpperChars : List Nat → List Char
  | [] => []
  | b :: rest => hexDig (b / 16) :: hexDig (b % 16) :: hexUpperChars rest

def hexUpper (bs : List Nat) : String := String.mk (hexUpperChars bs)

/-- Hexadecimal value of a character, either case (as `bytes.fromhex`). -/
def hexVal (c : Char) : Option Nat :=
  if 48 ≤ c.toNat ∧ c.toNat ≤ 57 then some (c.toNat - 48)
  else if 97 ≤ c.toNat ∧ c.toNat ≤ 102 then some (c.toNat - 97 + 10)
  else if 65 ≤ c.toNat ∧ c.toNat ≤ 70 then some (c.toNat - 65 + 10)
  else none

/-- Model of Python `bytes.fromhex`: pairs of hex digits. -/
def bytesOfHexList : List Char → Option (List Nat)
  | [] => some []
  | [_] => none
  | c1 :: c2 :: rest =>
    match hexVal c1, hexVal c2, bytesOfHexList rest with
    | some h1, some h2, some t => some ((h1 * 16 + h2) :: t)
    | _, _, _ => none

def pyBytesFromHex (s : String) : Option (List Nat) := bytesOfHexList s.toList

/-- Python `len` on a string (code points). -/
def pyLen (s : String) : Nat := s.toList.length

/-- Line 90: `padding = '=' * (-len(b64_id) % 4)` appended to the id. -/
def b64pad (s : String) : String :=
  String.mk (s.toList ++ List.replicate ((4 - pyLen s % 4) % 4) '=')

/-- Lines 87-92: pad the base64 id to a multiple of four characters, decode,
hex-encode uppercase.  `none` models the exception path. -/
def b64_to_hex (b64_id : String) : Option String :=
  (pyB64Decode (b64pad b64_id)).map hexUpper

/-- `dict[fingerprint_hex] = bandwidth` of the source. -/
abbrev Mapping := List (String × Int)

/-- Python dict assignment `results[k] = v`: overwrite in place, else append. -/
def dictInsert (m : Mapping) (k : String) (v : Int) : Mapping :=
  if m.any (fun p => p.1 == k) then m.map (fun p => if p.1 == k then (k, v) else p)
  else m ++ [(k, v)]

/-- Python `mapping.get(k)`. -/
def dictGet : Mapping → String → Option Int
  | [], _ => none
  | p :: rest, k => if p.1 == k then some p.2 else dictGet rest k

/-- Lines 122-132: first token after `w` starting with `Bandwidth=`, integer
after the first `=` (character 10 of the token, since the first nine
characters are `Bandwidth`).  A failing `int()` aborts the whole `try`
block, so no later token is examined; that and the token-not-found case are
both `none`. -/
def wLineBandwidth (line : String) : Option Int :=
  match (pySplit line).tail.find? (fun p => pyStartsWith p "Bandwidth=") with
  | some p => pyInt (String.mk (p.toList.drop 10))
  | none => none

/-- Lines 107-117: the new pending slot after an `r ` line — `parts[2]`
decoded when there are at least three tokens, else `None`; a decoding
exception is also `None`. -/
def rPending (line : String) : Option String :=
  let parts := pySplit line
  if 3 ≤ parts.length then b64_to_hex (parts.getD 2 "") else none

/-- Lines 103-139: one step of the parser loop.  State is
`(results, current_fp)`.  The `elif current_fp and line.startswith("w ")`
truthiness test makes a pending empty string behave like `None`.  Any other
line (including an `s`/`v` line) leaves the state unchanged. -/
def parseLine (st : Mapping × Option String) (line : String) : Mapping × Option String :=
  if line = "" then st
  else if pyStartsWith line "r " then (st.1, rPending line)
  else
    match st.2 with
    | some fp =>
      if fp ≠ "" ∧ pyStartsWith line "w " then
        match wLineBandwidth line with
        | some bw => (dictInsert st.1 fp bw, none)
        | none => (st.1, none)
      else st
    | none => st

def parseLines (ls : List String) : Mapping :=
  (ls.foldl parseLine ([], none)).1

/-- Lines 94-141: fold the parser step over the document's lines starting
from an empty mapping and no pending fingerprint. -/
def parse_consensus (text : String) : Mapping :=
  parseLines (pySplitlines text)

/-- `set(m.keys())` of a day mapping. -/
def keysOf (m : Mapping) : Finset String := (m.map Prod.fst).toFinset

/-- Lines 159-167: intersection of the key sets, seeded with the first
day's keys; the empty panel yields the empty set. -/
def commonOf : List (String × Mapping) → Finset String
  | [] => ∅
  | e :: rest => rest.foldl (fun acc e' => acc ∩ keysOf e'.2) (keysOf e.2)

/-- Lines 149-157: the per-day loop of `build_panel`.  `fetchDoc` abstracts
`fetch_consensus day hours` (network I/O); an `Except.error` models the
exception that aborts the loop, which the source does not catch. -/
def build_panel_days (fetchDoc : String → Except String String) :
    List String → Except String (List (String × Mapping))
  | [] => Except.ok []
  | day :: rest =>
    match fetchDoc day with
    | Except.error e => Except.error e
    | Except.ok text =>
      match build_panel_days fetchDoc rest with
      | Except.error e => Except.error e
      | Except.ok tl => Except.ok ((day, parse_consensus text) :: tl)

/-- Lines 143-167: panel plus derived common set. -/
def build_panel (fetchDoc : String → Except String String) (days : List String) :
    Except String (List (String × Mapping) × Finset String) :=
  match build_panel_days fetchDoc days with
  | Except.error e => Except.error e
  | Except.ok pd => Except.ok (pd, commonOf pd)

/-- Lexicographic comparison of character lists by code point. -/
def strLeB : List Char → List Char → Bool
  | [], _ => true
  | _ :: _, [] => false
  | a :: as, b :: bs => if a < b then true else if b < a then false else strLeB as bs

/-- A total order on strings (lexicographic on code points). -/
def strLe (s t : String) : Prop := strLeB s.toList t.toList = true

instance : DecidableRel strLe := fun _ _ => inferInstanceAs (Decidable (_ = true))

theorem strLeB_total : ∀ xs ys : List Char, strLeB xs ys = true ∨ strLeB ys xs = true
  | [], _ => Or.inl rfl
  | _ :: _, [] => Or.inr rfl
  | a :: as, b :: bs => by
    simp only [strLeB]
    rcases lt_trichotomy a b with h | h | h
    · simp [h]
    · subst h
      simpa [lt_irrefl] using strLeB_total as bs
    · simp [h, lt_asymm h]

theorem strLeB_trans : ∀ xs ys zs : List Char,
    strLeB xs ys = true → strLeB ys zs = true → strLeB xs zs = true
  | [], _, _, _, _ => rfl
  | _ :: _, [], _, h, _ => by simp [strLeB] at h
  | _ :: _, _ :: _, [], _, h => by simp [strLeB] at h
  | a :: as, b :: bs, c :: cs, h1, h2 => by
    simp only [strLeB] at h1 h2 ⊢
    rcases lt_trichotomy a b with hab | hab | hab
    · rcases lt_trichotomy b c with hbc | hbc | hbc
      · simp [lt_trans hab hbc]
      · subst hbc; simp [hab]
      · simp [hbc, lt_asymm hbc] at h2
    · subst hab
      rcases lt_trichotomy a c with hac | hac | hac
      · simp [hac]
      · subst hac
        simp only [lt_irrefl, if_false] at h1 h2 ⊢
        exact strLeB_trans as bs cs h1 h2
      · simp [hac, lt_asymm hac] at h2
    · simp [hab, lt_asymm hab] at h1

theorem strLeB_antisymm : ∀ xs ys : List Char,
    strLeB xs ys = true → strLeB ys xs = true → xs = ys
  | [], [], _, _ => rfl
  | [], _ :: _, _, h => by simp [strLeB] at h
  | _ :: _, [], h, _ => by simp [strLeB] at h
  | a :: as, b :: bs, h1, h2 => by
    simp only [strLeB] at h1 h2
    rcases lt_trichotomy a b with hab | hab | hab
    · simp [hab, lt_asymm hab] at h2
    · subst hab
      simp only [lt_irrefl, if_false] at h1 h2
      rw [strLeB_antisymm as bs h1 h2]
    · simp [hab, lt_asymm hab] at h1

theorem string_toList_injective : ∀ s t : String, s.toList = t.toList → s = t := by
  intro s t h
  cases s
  cases t
  exact congrArg String.mk (by simpa [String.toList] using h)

instance : IsTotal String strLe := ⟨fun s t => strLeB_total s.toList t.toList⟩

instance : IsTrans String strLe :=
  ⟨fun s t u h1 h2 => strLeB_trans s.toList t.toList u.toList h1 h2⟩

instance : IsAntisymm String strLe :=
  ⟨fun s t h1 h2 => string_toList_injective s t (strLeB_antisymm s.toList t.toList h1 h2)⟩

/-- Iteration order over the common set: Python's set order is unspecified,
the model fixes one enumeration of the same set (sorted by `strLe`). -/
def commonIter (common : Finset String) : List String :=
  Quot.liftOn common.val (List.insertionSort strLe) fun _ _ h =>
    List.eq_of_perm_of_sorted
      ((List.perm_insertionSort _ _).trans (h.trans (List.perm_insertionSort _ _).symm))
      (List.sorted_insertionSort _ _) (List.sorted_insertionSort _ _)

theorem mem_commonIter {x : String} {c : Finset String} : x ∈ commonIter c ↔ x ∈ c := by
  rcases c with ⟨m, hm⟩
  induction m using Quot.inductionOn with
  | h l =>
    show x ∈ List.insertionSort strLe l ↔ _
    rw [(List.perm_insertionSort strLe l).mem_iff]
    rfl

theorem length_commonIter (c : Finset String) : (commonIter c).length = c.card := by
  rcases c with ⟨m, hm⟩
  induction m using Quot.inductionOn with
  | h l =>
    show (List.insertionSort strLe l).length = _
    rw [(List.perm_insertionSort strLe l).length_eq]
    rfl

/-- Lines 175-182, one day: rows for the fingerprints of the common set that
the day's mapping holds (`mapping.get(fp)` is checked against `None`);
timestamp is the day at midnight. -/
def rowsForDay (e : String × Mapping) (common : Finset String) :
    List (String × String × Int × String) :=
  (commonIter common).filterMap
    (fun fp => (dictGet e.2 fp).map (fun bw => (e.1, fp, bw, e.1 ++ "T00:00:00")))

/-- Lines 169-182: the data rows `write_csv` emits, in day order. -/
def write_csv_rows (pd : List (String × Mapping)) (common : Finset String) :
    List (String × String × Int × String) :=
  (pd.map (fun e => rowsForDay e common)).flatten

def csvHeader : List String := ["date", "fingerprint", "relay_bandwidth", "timestamp"]

/-- Lines 172-182: everything `write_csv` writes — header then data rows. -/
def write_csv_lines (pd : List (String × Mapping)) (common : Finset String) :
    List (List String) :=
  csvHeader :: (write_csv_rows pd common).map (fun r => [r.1, r.2.1, toString r.2.2.1, r.2.2.2])

/-- Lines 194-218 after argument parsing: exit code, CSV contents written
(`none` when no file write happens — an uncaught exception makes the
interpreter exit with code 1), and whether the empty-common warning was
printed. -/
def main_run (fetchDoc : String → Except String String) (days : List String) :
    Nat × Option (List (List String)) × Bool :=
  match build_panel fetchDoc days with
  | Except.error _ => (1, none, false)
  | Except.ok (pd, common) =>
    if pd.isEmpty then (1, none, false)
    else (0, some (write_csv_lines pd common), common.card == 0)

/-- `f"{last_err}"` of line 85: `None` prints as the word, an exception as
its message. -/
def strOfLastErr : Option String → String
  | none => "None"
  | some e => e

/-- Lines 75-85: the hour loop with its `last_err` variable.  `tryHour`
abstracts `fetch_from_month_tar day hour` (network/disk I/O). -/
def fetch_consensus_from (day : String) (tryHour : Nat → Except String String) :
    List Nat → Option String → Except String String
  | [], lastErr =>
    Except.error ("Failed to fetch consensus for " ++ day ++ ": " ++ strOfLastErr lastErr)
  | h :: rest, _lastErr =>
    match tryHour h with
    | Except.ok doc => Except.ok doc
    | Except.error e => fetch_consensus_from day tryHour rest (some e)

def fetch_consensus (day : String) (tryHour : Nat → Except String String)
    (hours : List Nat) : Except String String :=
  fetch_consensus_from day tryHour hours none

/-! ## Basic facts about the parser step -/

theorem ne_empty_of_pyStartsWith {l pre : String} (h : pyStartsWith l pre = true)
    (hpre : pre.toList ≠ []) : l ≠ "" := by
  intro hl
  subst hl
  unfold pyStartsWith at h
  cases hp : pre.toList with
  | nil => exact hpre hp
  | cons a as =>
    rw [hp] at h
    simp [List.isPrefixOf] at h

theorem not_r_of_pyStartsWith_w {l : String} (h : pyStartsWith l "w " = true) :
    pyStartsWith l "r " = false := by
  unfold pyStartsWith at h ⊢
  cases hl : l.toList with
  | nil => rw [hl] at h; simp [List.isPrefixOf] at h
  | cons c cs =>
    rw [hl] at h
    have hc : c = 'w' := by
      simp only [show ("w " : String).toList = ['w', ' '] from rfl,
        List.isPrefixOf, Bool.and_eq_true, beq_iff_eq] at h
      exact h.1.symm
    subst hc
    simp [show ("r " : String).toList = ['r', ' '] from rfl, List.isPrefixOf]

/-- A line that is neither an `r ` line nor a `w ` line leaves the parser
state unchanged (the source's `else: pass`, and the skip of empty lines). -/
theorem parseLine_other (st : Mapping × Option String) (l : String)
    (hr : pyStartsWith l "r " = false) (hw : pyStartsWith l "w " = false) :
    parseLine st l = st := by
  rcases st with ⟨res, p⟩
  unfold parseLine
  by_cases he : l = ""
  · simp [he]
  · cases p with
    | none => simp [he, hr]
    | some fp => simp [he, hr, hw]

/-- An `r ` line only replaces the pending slot. -/
theorem parseLine_r (st : Mapping × Option String) (l : String)
    (hr : pyStartsWith l "r " = true) : parseLine st l = (st.1, rPending l) := by
  have hne : l ≠ "" := ne_empty_of_pyStartsWith hr (by decide)
  unfold parseLine
  simp [hne, hr]

/-- A `w ` line with a truthy pending fingerprint inserts (or not) and
clears the pending slot. -/
theorem parseLine_w (st : Mapping × Option String) (l fp : String)
    (hp : st.2 = some fp) (hfp : fp ≠ "") (hw : pyStartsWith l "w " = true) :
    parseLine st l =
      match wLineBandwidth l with
      | some bw => (dictInsert st.1 fp bw, none)
      | none => (st.1, none) := by
  have hne : l ≠ "" := ne_empty_of_pyStartsWith hw (by decide)
  have hr : pyStartsWith l "r " = false := not_r_of_pyStartsWith_w hw
  rcases st with ⟨res, p⟩
  simp only at hp
  subst hp
  unfold parseLine
  simp [hne, hr, hw, hfp]

/-- Folding lines with no `r `/`w ` marker does nothing at all. -/
theorem foldl_parseLine_inert (ls : List String)
    (h : ∀ l ∈ ls, pyStartsWith l "r " = false ∧ pyStartsWith l "w " = false) :
    ∀ st, ls.foldl parseLine st = st := by
  induction ls with
  | nil => intro st; rfl
  | cons l t ih =>
    intro st
    rw [List.foldl_cons, parseLine_other st l (h l (by simp)).1 (h l (by simp)).2]
    exact ih (fun x hx => h x (by simp [hx])) st

/-- Folding lines with no `w ` marker never changes the results mapping. -/
theorem foldl_parseLine_no_w (ls : List String)
    (h : ∀ l ∈ ls, pyStartsWith l "w " = false) :
    ∀ st, (ls.foldl parseLine st).1 = st.1 := by
  induction ls with
  | nil => intro st; rfl
  | cons l t ih =>
    intro st
    rw [List.foldl_cons]
    by_cases hr : pyStartsWith l "r " = true
    · rw [parseLine_r st l hr]
      exact ih (fun x hx => h x (by simp [hx])) _
    · rw [parseLine_other st l (by simpa using hr) (h l (by simp))]
      exact ih (fun x hx => h x (by simp [hx])) st

/-! ## C10 — recovery from malformed lines -/

theorem rPending_short {l : String} (h : (pySplit l).length < 3) : rPending l = none := by
  unfold rPending
  simp only [show ¬ 3 ≤ (pySplit l).length from by omega, if_false]

/-- C10: `parse_consensus` is total by construction (it is a plain fold of
`parseLine`, every Python exception path being an `Option.none`), and the
three malformed-input cases are each handled by omitting the relay and
clearing the pending slot: a relay-descriptor line with fewer than three
tokens, an identity that fails base64 decoding, and a weight line whose
first `Bandwidth=` token does not carry a valid integer (or carries no such
token at all). -/
theorem parse_malformed_recovery :
    (∀ (st : Mapping × Option String) (line : String),
      pyStartsWith line "r " = true → (pySplit line).length < 3 →
      parseLine st line = (st.1, none))
    ∧ (∀ (st : Mapping × Option String) (line : String),
      pyStartsWith line "r " = true → 3 ≤ (pySplit line).length →
      b64_to_hex ((pySplit line).getD 2 "") = none →
      parseLine st line = (st.1, none))
    ∧ (∀ (st : Mapping × Option String) (line fp : String),
      st.2 = some fp → fp ≠ "" → pyStartsWith line "w " = true →
      wLineBandwidth line = none →
      parseLine st line = (st.1, none)) := by
  refine ⟨?_, ?_, ?_⟩
  · intro st line hr hlen
    rw [parseLine_r st line hr, rPending_short hlen]
  · intro st line hr hlen hb
    rw [parseLine_r st line hr]
    unfold rPending
    simp only [hlen, if_true]
    rw [hb]
  · intro st line fp hp hfp hw hbw
    rw [parseLine_w st line fp hp hfp hw, hbw]

/-- C10 witness: the three malformed cases at concrete inputs — a two-token
`r` line, an `r` line whose identity `A` fails base64 decoding, and a
weight line with a non-integer bandwidth while `AB` is pending. -/
theorem parse_malformed_recovery_witness :
    parseLine ([], none) "r x" = ([], none) ∧
    parseLine ([], none) "r a A b" = ([], none) ∧
    parseLine ([("K", 3)], some "AB") "w Bandwidth=xyz" = ([("K", 3)], none) :=
  ⟨parse_malformed_recovery.1 ([], none) "r x" (by decide) (by decide),
   parse_malformed_recovery.2.1 ([], none) "r a A b" (by decide) (by decide) (by decide),
   parse_malformed_recovery.2.2 ([("K", 3)], some "AB") "w Bandwidth=xyz" "AB"
     rfl (by decide) (by decide) (by decide)⟩

/-! ## C2 — an `r` line with no following `w` line -/

/-- C2 counterexample: the claim says a relay-descriptor line that is not
*immediately* followed by a weight line (interrupted by any other line kind)
contributes no entry.  In the code, an interposed `s` line leaves the
pending slot untouched, and the later `w` line still pairs with the `r`
line: the relay gets an entry. -/
theorem parse_pairs_across_s_line :
    parse_consensus "r n AAAAAAAAAAAAAAAAAAAAAAAAAAA x\ns Fast\nw Bandwidth=7" =
      [("0000000000000000000000000000000000000000", 7)] := by decide

/-- C2 (amended): a relay-descriptor line contributes no entry when no
weight line occurs *before the next relay-descriptor line or the end of the
document*; lines of any other kind do not interrupt the pairing.  Stated as:
deleting such an `r` line (the inert lines around it may stay) does not
change the parse result. -/
theorem parse_r_unpaired_no_entry :
    (∀ (pre mid : List String) (rline : String),
      pyStartsWith rline "r " = true →
      (∀ l ∈ mid, pyStartsWith l "r " = false ∧ pyStartsWith l "w " = false) →
      parseLines (pre ++ rline :: mid) = parseLines pre)
    ∧ (∀ (pre mid rest : List String) (rline rline2 : String),
      pyStartsWith rline "r " = true → pyStartsWith rline2 "r " = true →
      (∀ l ∈ mid, pyStartsWith l "r " = false ∧ pyStartsWith l "w " = false) →
      parseLines (pre ++ rline :: (mid ++ rline2 :: rest)) =
        parseLines (pre ++ rline2 :: rest)) := by
  constructor
  · intro pre mid rline hr hmid
    unfold parseLines
    rw [List.foldl_append, List.foldl_cons, parseLine_r _ rline hr,
      foldl_parseLine_inert mid hmid]
  · intro pre mid rest rline rline2 hr hr2 hmid
    unfold parseLines
    rw [List.foldl_append, List.foldl_append, List.foldl_cons, List.foldl_cons,
      parseLine_r _ rline hr, List.foldl_append, List.foldl_cons,
      foldl_parseLine_inert mid hmid, parseLine_r _ rline2 hr2,
      parseLine_r _ rline2 hr2]

/-- C2 witness: with `pre = ["r p CCCC q", "w Bandwidth=1"]`, an unpaired
trailing `r` line followed only by an `s` line adds nothing. -/
theorem parse_r_unpaired_no_entry_witness :
    pyStartsWith "r a AAAA b" "r " = true ∧
    parseLines (["r p CCCC q", "w Bandwidth=1"] ++ "r a AAAA b" :: ["s Fast"]) =
      parseLines ["r p CCCC q", "w Bandwidth=1"] :=
  ⟨by decide,
   parse_r_unpaired_no_entry.1 ["r p CCCC q", "w Bandwidth=1"] ["s Fast"] "r a AAAA b"
     (by decide) (by decide)⟩

/-! ## C5 — two `r` lines with no intervening `w` line -/

/-- C5: a second relay-descriptor line reached with no intervening weight
line overwrites the pending slot (first conjunct: the fold of the two `r`
lines and anything non-`w` between them lands in exactly the state the
second `r` line alone would produce), so the first relay receives no
mapping entry and only the second relay's subsequent weight line can
produce one (second conjunct: the first `r` line can be deleted without
changing the parse result). -/
theorem parse_second_r_overwrites :
    (∀ (st : Mapping × Option String) (mid : List String) (rline rline2 : String),
      pyStartsWith rline "r " = true → pyStartsWith rline2 "r " = true →
      (∀ l ∈ mid, pyStartsWith l "w " = false) →
      (rline :: (mid ++ [rline2])).foldl parseLine st = (st.1, rPending rline2))
    ∧ (∀ (pre mid rest : List String) (rline rline2 : String),
      pyStartsWith rline "r " = true → pyStartsWith rline2 "r " = true →
      (∀ l ∈ mid, pyStartsWith l "w " = false) →
      parseLines (pre ++ rline :: (mid ++ rline2 :: rest)) =
        parseLines (pre ++ rline2 :: rest)) := by
  have key : ∀ (st : Mapping × Option String) (mid : List String) (rline rline2 : String),
      pyStartsWith rline "r " = true → pyStartsWith rline2 "r " = true →
      (∀ l ∈ mid, pyStartsWith l "w " = false) →
      ∀ rest, (rline :: (mid ++ rline2 :: rest)).foldl parseLine st =
        rest.foldl parseLine (st.1, rPending rline2) := by
    intro st mid rline rline2 hr hr2 hmid rest
    rw [List.foldl_cons, parseLine_r st rline hr, List.foldl_append, List.foldl_cons]
    have hmid' : (mid.foldl parseLine (st.1, rPending rline)).1 = st.1 :=
      foldl_parseLine_no_w mid hmid _
    rw [parseLine_r _ rline2 hr2, hmid']
  constructor
  · intro st mid rline rline2 hr hr2 hmid
    have h := key st mid rline rline2 hr hr2 hmid []
    simpa using h
  · intro pre mid rest rline rline2 hr hr2 hmid
    unfold parseLines
    rw [List.foldl_append, key _ mid rline rline2 hr hr2 hmid rest,
      List.foldl_append, List.foldl_cons, parseLine_r _ rline2 hr2]

/-- C5 witness: concrete overwrite — `r a AAAA b`, an `s` line, then
`r c BBBB d` starting from a nontrivial state. -/
theorem parse_second_r_overwrites_witness :
    pyStartsWith "r a AAAA b" "r " = true ∧
    ("r a AAAA b" :: (["s Fast"] ++ ["r c BBBB d"])).foldl parseLine
        ([("K", 3)], some "P") = ([("K", 3)], rPending "r c BBBB d") :=
  ⟨by decide,
   parse_second_r_overwrites.1 ([("K", 3)], some "P") ["s Fast"] "r a AAAA b" "r c BBBB d"
     (by decide) (by decide) (by decide)⟩

/-! ## Provenance invariant of the parser fold (for C3 and C4) -/

theorem mem_dictInsert {m : Mapping} {k : String} {v : Int} {p : String × Int}
    (h : p ∈ dictInsert m k v) : p = (k, v) ∨ p ∈ m := by
  unfold dictInsert at h
  split at h
  · rcases List.mem_map.1 h with ⟨q, hq, hpq⟩
    by_cases hk : (q.1 == k) = true
    · left
      rw [← hpq]
      simp [hk]
    · right
      rw [← hpq]
      simpa [hk] using hq
  · rcases List.mem_append.1 h with h1 | h1
    · right; exact h1
    · left; simpa using h1

theorem rPending_some {l fp : String} (h : rPending l = some fp) :
    ∃ s, b64_to_hex s = some fp := by
  by_cases hc : 3 ≤ (pySplit l).length
  · refine ⟨(pySplit l).getD 2 "", ?_⟩
    rw [show rPending l = b64_to_hex ((pySplit l).getD 2 "") from by
      unfold rPending; simp [hc]] at h
    exact h
  · rw [rPending_short (by omega)] at h
    cases h

/-- One parser step preserves a key predicate (supplied for everything
`b64_to_hex` can return) and a value predicate (supplied for the bandwidth
value the current line can carry), on both the results and the pending
slot. -/
theorem parseLine_inv (Pk : String → Prop) (Pv : Int → Prop)
    (hb : ∀ s fp, b64_to_hex s = some fp → Pk fp)
    (st : Mapping × Option String) (l : String)
    (hres : ∀ p ∈ st.1, Pk p.1 ∧ Pv p.2)
    (hpend : ∀ fp, st.2 = some fp → Pk fp)
    (hline : ∀ v, wLineBandwidth l = some v → Pv v) :
    (∀ p ∈ (parseLine st l).1, Pk p.1 ∧ Pv p.2) ∧
      (∀ fp, (parseLine st l).2 = some fp → Pk fp) := by
  by_cases he : l = ""
  · have hst : parseLine st l = st := by unfold parseLine; simp [he]
    rw [hst]
    exact ⟨hres, hpend⟩
  by_cases hr : pyStartsWith l "r " = true
  · rw [parseLine_r st l hr]
    refine ⟨hres, ?_⟩
    intro fp hfp
    rcases rPending_some hfp with ⟨s, hs⟩
    exact hb s fp hs
  cases hp : st.2 with
  | none =>
    have hst : parseLine st l = st := by
      rcases st with ⟨res, p⟩
      simp only at hp
      subst hp
      unfold parseLine
      simp [he, hr]
    rw [hst]
    exact ⟨hres, hpend⟩
  | some fp =>
    by_cases hw : pyStartsWith l "w " = true
    · by_cases hfp : fp = ""
      · have hst : parseLine st l = st := by
          rcases st with ⟨res, p⟩
          simp only at hp
          subst hp
          unfold parseLine
          simp [he, hr, hfp]
        rw [hst]
        exact ⟨hres, hpend⟩
      · cases hbw : wLineBandwidth l with
        | some bw =>
          rw [parseLine_w st l fp hp hfp hw, hbw]
          refine ⟨?_, ?_⟩
          · intro p hpmem
            rcases mem_dictInsert hpmem with hpeq | hpm
            · subst hpeq
              exact ⟨hpend fp hp, hline bw hbw⟩
            · exact hres p hpm
          · intro f hf
            cases hf
        | none =>
          rw [parseLine_w st l fp hp hfp hw, hbw]
          refine ⟨hres, ?_⟩
          intro f hf
          cases hf
    · have hst : parseLine st l = st :=
        parseLine_other st l (by simpa using hr) (by simpa using hw)
      rw [hst]
      exact ⟨hres, hpend⟩

/-- The invariant carried through the whole fold. -/
theorem foldl_parseLine_inv (Pk : String → Prop) (Pv : Int → Prop)
    (hb : ∀ s fp, b64_to_hex s = some fp → Pk fp) :
    ∀ (ls : List String) (st : Mapping × Option String),
      (∀ p ∈ st.1, Pk p.1 ∧ Pv p.2) → (∀ fp, st.2 = some fp → Pk fp) →
      (∀ l ∈ ls, ∀ v, wLineBandwidth l = some v → Pv v) →
      ∀ p ∈ (ls.foldl parseLine st).1, Pk p.1 ∧ Pv p.2
  | [], _, hres, _, _ => hres
  | l :: t, st, hres, hpend, hls => by
    rw [List.foldl_cons]
    have step := parseLine_inv Pk Pv hb st l hres hpend (hls l (by simp))
    exact foldl_parseLine_inv Pk Pv hb t (parseLine st l) step.1 step.2
      (fun x hx v hv => hls x (by simp [hx]) v hv)

/-! ## Shape of everything `b64_to_hex` can return (for C3) -/

theorem b64Val_lt {c : Char} {v : Nat} (h : b64Val c = some v) : v < 64 := by
  unfold b64Val at h
  split_ifs at h <;> (injection h with h; omega)

theorem b64DecodeVals_bytes_lt : ∀ vals : List Nat, (∀ v ∈ vals, v < 64) →
    ∀ bs, b64DecodeVals vals = some bs → ∀ b ∈ bs, b < 256
  | [], _, bs, hbs => by
    simp only [b64DecodeVals, Option.some.injEq] at hbs
    subst hbs
    simp
  | [a], _, bs, hbs => by simp [b64DecodeVals] at hbs
  | [a, b], h, bs, hbs => by
    simp only [b64DecodeVals, Option.some.injEq] at hbs
    subst hbs
    have ha := h a (by simp)
    have hb := h b (by simp)
    intro x hx
    simp only [List.mem_singleton] at hx
    omega
  | [a, b, c], h, bs, hbs => by
    simp only [b64DecodeVals, Option.some.injEq] at hbs
    subst hbs
    have ha := h a (by simp)
    have hb := h b (by simp)
    have hc := h c (by simp)
    intro x hx
    simp only [List.mem_cons, List.mem_singleton, List.not_mem_nil, or_false] at hx
    rcases hx with rfl | rfl
    · omega
    · omega
  | a :: b :: c :: d :: rest, h, bs, hbs => by
    simp only [b64DecodeVals] at hbs
    rcases Option.map_eq_some'.1 hbs with ⟨t, ht, hbt⟩
    subst hbt
    have ha := h a (by simp)
    have hb := h b (by simp)
    have hc := h c (by simp)
    have hd := h d (by simp)
    intro x hx
    simp only [List.mem_cons] at hx
    rcases hx with rfl | rfl | rfl | hx
    · omega
    · omega
    · omega
    · exact b64DecodeVals_bytes_lt rest (fun v hv => h v (by simp [hv])) t ht x hx

theorem pyB64Decode_bytes_lt {s : String} {bs : List Nat} (h : pyB64Decode s = some bs) :
    ∀ b ∈ bs, b < 256 := by
  unfold pyB64Decode at h
  refine b64DecodeVals_bytes_lt _ ?_ bs h
  intro v hv
  rcases List.mem_filterMap.1 hv with ⟨c, _, hc⟩
  exact b64Val_lt hc

theorem length_hexUpperChars : ∀ bs : List Nat, (hexUpperChars bs).length = 2 * bs.length
  | [] => rfl
  | b :: rest => by
    simp only [hexUpperChars, List.length_cons, length_hexUpperChars rest]
    omega

/-- The character set `bytes.hex().upper()` draws from. -/
def isHexUpperDigit (c : Char) : Prop :=
  (48 ≤ c.toNat ∧ c.toNat ≤ 57) ∨ (65 ≤ c.toNat ∧ c.toNat ≤ 70)

instance (c : Char) : Decidable (isHexUpperDigit c) := by
  unfold isHexUpperDigit
  infer_instance

theorem isHexUpperDigit_hexDig : ∀ n : Nat, n < 16 → isHexUpperDigit (hexDig n) := by decide

theorem mem_hexUpperChars_isHex : ∀ bs : List Nat, (∀ b ∈ bs, b < 256) →
    ∀ c ∈ hexUpperChars bs, isHexUpperDigit c
  | [], _, c, hc => by simp [hexUpperChars] at hc
  | b :: rest, h, c, hc => by
    have hb := h b (by simp)
    simp only [hexUpperChars, List.mem_cons] at hc
    rcases hc with rfl | rfl | hc
    · exact isHexUpperDigit_hexDig _ (by omega)
    · exact isHexUpperDigit_hexDig _ (by omega)
    · exact mem_hexUpperChars_isHex rest (fun x hx => h x (by simp [hx])) c hc

theorem b64_to_hex_shape {s fp : String} (h : b64_to_hex s = some fp) :
    ∃ bs : List Nat, (∀ b ∈ bs, b < 256) ∧ fp = hexUpper bs := by
  unfold b64_to_hex at h
  rcases Option.map_eq_some'.1 h with ⟨bs, hbs, hfp⟩
  exact ⟨bs, pyB64Decode_bytes_lt hbs, hfp.symm⟩

/-! ## C3 — fingerprint keys -/

/-- C3 counterexample: the claim says every key of `parse_consensus` has
exactly 40 characters for every input document.  `b64_to_hex` never checks
that the identity decodes to 20 bytes: the four-character identity `AAAA`
decodes to three bytes, producing the six-character key `000000`. -/
theorem parse_consensus_short_key :
    ("000000", (5 : Int)) ∈ parse_consensus "r n AAAA x\nw Bandwidth=5" ∧
      pyLen "000000" ≠ 40 := by decide

/-- C3 (amended): every key of the mapping returned by `parse_consensus` is
a string of uppercase hexadecimal characters of *even* length; a key has
exactly 40 characters whenever its identity field decodes to 20 bytes (the
code never checks that length, so shorter or longer decodable identities
yield keys of other even lengths). -/
theorem parse_keys_even_hex :
    (∀ text : String, ∀ p ∈ parse_consensus text,
      pyLen p.1 % 2 = 0 ∧ ∀ c ∈ p.1.toList, isHexUpperDigit c)
    ∧ (∀ s fp : String, ∀ bs : List Nat, b64_to_hex s = some fp →
      pyB64Decode (b64pad s) = some bs → bs.length = 20 → pyLen fp = 40) := by
  constructor
  · intro text p hp
    refine (foldl_parseLine_inv
      (fun k => pyLen k % 2 = 0 ∧ ∀ c ∈ k.toList, isHexUpperDigit c)
      (fun _ => True) ?_ (pySplitlines text) ([], none) (by simp) (by simp)
      (by simp) p hp).1
    intro s fp hfp
    rcases b64_to_hex_shape hfp with ⟨bs, hbs, rfl⟩
    constructor
    · show (hexUpperChars bs).length % 2 = 0
      rw [length_hexUpperChars]
      omega
    · intro c hc
      exact mem_hexUpperChars_isHex bs hbs c hc
  · intro s fp bs h hdec hlen
    unfold b64_to_hex at h
    rw [hdec] at h
    simp only [Option.map_some', Option.some.injEq] at h
    subst h
    show (hexUpperChars bs).length = 40
    rw [length_hexUpperChars, hlen]

/-- C3 witness: the amended properties at the concrete short key `000000`
and at a 27-character identity that does decode to 20 bytes. -/
theorem parse_keys_even_hex_witness :
    (("000000", (5 : Int)) ∈ parse_consensus "r n AAAA x\nw Bandwidth=5") ∧
    (pyLen "000000" % 2 = 0 ∧ ∀ c ∈ ("000000" : String).toList, isHexUpperDigit c) ∧
    pyLen "0000000000000000000000000000000000000000" = 40 :=
  ⟨by decide,
   parse_keys_even_hex.1 "r n AAAA x\nw Bandwidth=5" ("000000", (5 : Int)) (by decide),
   parse_keys_even_hex.2 "AAAAAAAAAAAAAAAAAAAAAAAAAAA"
     "0000000000000000000000000000000000000000" (List.replicate 20 0)
     (by decide) (by decide) (by decide)⟩

/-! ## C4 — bandwidth values -/

theorem dictGet_mem : ∀ (m : Mapping) (k : String) (v : Int),
    dictGet m k = some v → (k, v) ∈ m
  | [], _, _, h => by cases h
  | p :: rest, k, v, h => by
    unfold dictGet at h
    by_cases hk : (p.1 == k) = true
    · rw [if_pos hk] at h
      injection h with h
      have hp1 : p.1 = k := by simpa [beq_iff_eq] using hk
      have hp : p = (k, v) := by
        rcases p with ⟨a, b⟩
        simp only at hp1 h
        rw [hp1, h]
      rw [← hp]
      exact List.mem_cons_self p rest
    · rw [if_neg hk] at h
      right
      exact dictGet_mem rest k v h

/-- Structure of a row of `write_csv_rows`: it comes from some panel entry
and that entry's own `dictGet`. -/
theorem write_csv_rows_mem {pd : List (String × Mapping)} {common : Finset String}
    {r : String × String × Int × String} (h : r ∈ write_csv_rows pd common) :
    ∃ e ∈ pd, ∃ fp bw, dictGet e.2 fp = some bw ∧
      r = (e.1, fp, bw, e.1 ++ "T00:00:00") := by
  unfold write_csv_rows at h
  rcases List.mem_flatten.1 h with ⟨l, hl, hrl⟩
  rcases List.mem_map.1 hl with ⟨e, he, hle⟩
  subst hle
  unfold rowsForDay at hrl
  rcases List.mem_filterMap.1 hrl with ⟨fp, _, hfp⟩
  rcases Option.map_eq_some'.1 hfp with ⟨bw, hbw, hr⟩
  exact ⟨e, he, fp, bw, hbw, hr.symm⟩

/-- C4 counterexample: the claim says every value of the mapping is
non-negative for every input document.  `int()` happily parses `-5`, and
the parser stores it: the written bandwidth would be negative. -/
theorem parse_consensus_negative_value :
    dictGet (parse_consensus "r n AAAA x\nw Bandwidth=-5") "000000" = some (-5) ∧
      (-5 : Int) < 0 := by decide

/-- C4 (amended): every value of the mapping returned by `parse_consensus`
is an integer taken verbatim from a `Bandwidth=` token; it is non-negative
whenever every `Bandwidth=` token of the document carries a non-negative
integer (the code performs no sign check of its own), and rows written from
panels whose mappings only hold non-negative values carry non-negative
`relay_bandwidth`. -/
theorem parse_values_nonneg_cond :
    (∀ text : String,
      (∀ l ∈ pySplitlines text, ∀ v : Int, wLineBandwidth l = some v → 0 ≤ v) →
      ∀ p ∈ parse_consensus text, 0 ≤ p.2)
    ∧ (∀ (pd : List (String × Mapping)) (common : Finset String),
      (∀ e ∈ pd, ∀ p ∈ e.2, 0 ≤ p.2) →
      ∀ r ∈ write_csv_rows pd common, 0 ≤ r.2.2.1) := by
  constructor
  · intro text htok p hp
    exact (foldl_parseLine_inv (fun _ => True) (fun v => 0 ≤ v)
      (by simp) (pySplitlines text) ([], none) (by simp) (by simp)
      (fun l hl v hv => htok l hl v hv) p hp).2
  · intro pd common hnn r hr
    rcases write_csv_rows_mem hr with ⟨e, he, fp, bw, hbw, hreq⟩
    subst hreq
    exact hnn e he (fp, bw) (dictGet_mem e.2 fp bw hbw)

/-- C4 witness: the document `r n AAAA x\nw Bandwidth=5` has only the
non-negative token `5`, so its parsed value is non-negative, and the
resulting one-day panel only writes non-negative bandwidths. -/
theorem parse_values_nonneg_cond_witness :
    (("000000", (5 : Int)) ∈ parse_consensus "r n AAAA x\nw Bandwidth=5") ∧
      (0 : Int) ≤ (("000000", (5 : Int)) : String × Int).2 :=
  ⟨by decide,
   parse_values_nonneg_cond.1 "r n AAAA x\nw Bandwidth=5"
     (by
       intro l hl v hv
       rw [show pySplitlines "r n AAAA x\nw Bandwidth=5" =
         ["r n AAAA x", "w Bandwidth=5"] from rfl] at hl
       rcases List.mem_cons.1 hl with rfl | hl
       · rw [show wLineBandwidth "r n AAAA x" = none from rfl] at hv
         cases hv
       · rcases List.mem_cons.1 hl with rfl | hl
         · rw [show wLineBandwidth "w Bandwidth=5" = some 5 from rfl] at hv
           injection hv with hv
           omega
         · cases hl)
     ("000000", (5 : Int)) (by decide)⟩

/-! ## C1 — common set and row emission -/

theorem mem_keysOf_iff : ∀ (m : Mapping) (k : String),
    k ∈ keysOf m ↔ ∃ v, dictGet m k = some v
  | [], k => by simp [keysOf, dictGet]
  | p :: rest, k => by
    unfold keysOf dictGet
    simp only [List.map_cons, List.toFinset_cons, Finset.mem_insert]
    by_cases hk : (p.1 == k) = true
    · have hp1 : p.1 = k := by simpa [beq_iff_eq] using hk
      simp [hk, hp1]
    · have hp1 : p.1 ≠ k := by simpa [beq_iff_eq] using hk
      rw [if_neg hk]
      constructor
      · intro h
        rcases h with h | h
        · exact absurd h.symm hp1
        · exact (mem_keysOf_iff rest k).1 (by simpa [keysOf] using h)
      · intro h
        right
        simpa [keysOf] using (mem_keysOf_iff rest k).2 h

theorem mem_foldl_inter : ∀ (rest : List (String × Mapping)) (init : Finset String)
    (fp : String),
    fp ∈ rest.foldl (fun acc e => acc ∩ keysOf e.2) init ↔
      fp ∈ init ∧ ∀ e ∈ rest, fp ∈ keysOf e.2
  | [], init, fp => by simp
  | e :: t, init, fp => by
    rw [List.foldl_cons, mem_foldl_inter t (init ∩ keysOf e.2) fp]
    simp only [Finset.mem_inter, List.forall_mem_cons]
    tauto

/-- The common set is exactly the intersection of the key sets. -/
theorem mem_commonOf {pd : List (String × Mapping)} (hne : pd ≠ []) (fp : String) :
    fp ∈ commonOf pd ↔ ∀ e ∈ pd, fp ∈ keysOf e.2 := by
  cases pd with
  | nil => exact absurd rfl hne
  | cons e rest =>
    unfold commonOf
    rw [mem_foldl_inter, List.forall_mem_cons]

theorem length_filterMap_of_isSome {α β : Type} (f : α → Option β) :
    ∀ l : List α, (∀ x ∈ l, (f x).isSome) → (l.filterMap f).length = l.length
  | [], _ => rfl
  | x :: t, h => by
    rcases Option.isSome_iff_exists.1 (h x (by simp)) with ⟨y, hy⟩
    rw [List.filterMap_cons, hy]
    simp only [List.length_cons]
    rw [length_filterMap_of_isSome f t (fun z hz => h z (by simp [hz]))]

theorem sum_map_const_nat {α : Type} (c : Nat) : ∀ (l : List α) (f : α → Nat),
    (∀ x ∈ l, f x = c) → (l.map f).sum = l.length * c
  | [], _, _ => by simp
  | x :: t, f, h => by
    simp only [List.map_cons, List.sum_cons, List.length_cons, h x (by simp)]
    rw [sum_map_const_nat c t f (fun z hz => h z (by simp [hz]))]
    ring

/-- The three-day example panel of the specification. -/
def panel3 : List (String × Mapping) :=
  [("2023-01-01", [("A", 1), ("B", 2), ("C", 3)]),
   ("2023-01-02", [("B", 9), ("C", 3), ("D", 4)]),
   ("2023-01-03", [("B", 5), ("C", 6)])]

/-- C1: for a non-empty panel, the common set computed by `build_panel`'s
fold is exactly the intersection of the key sets of all day mappings, and
`write_csv` emits exactly `days × card` data rows, each carrying the value
`dictGet` returns from that day's own mapping; on the specification's
three-day example the common set is exactly `{B, C}` and exactly the six
expected rows are written. -/
theorem build_panel_common_rows :
    (∀ pd : List (String × Mapping), pd ≠ [] →
      (∀ fp, fp ∈ commonOf pd ↔ ∀ e ∈ pd, fp ∈ keysOf e.2) ∧
      (write_csv_rows pd (commonOf pd)).length = pd.length * (commonOf pd).card ∧
      (∀ r ∈ write_csv_rows pd (commonOf pd),
        ∃ m, (r.1, m) ∈ pd ∧ dictGet m r.2.1 = some r.2.2.1))
    ∧ (commonOf panel3 = {"B", "C"} ∧
      write_csv_rows panel3 (commonOf panel3) =
        [("2023-01-01", "B", 2, "2023-01-01T00:00:00"),
         ("2023-01-01", "C", 3, "2023-01-01T00:00:00"),
         ("2023-01-02", "B", 9, "2023-01-02T00:00:00"),
         ("2023-01-02", "C", 3, "2023-01-02T00:00:00"),
         ("2023-01-03", "B", 5, "2023-01-03T00:00:00"),
         ("2023-01-03", "C", 6, "2023-01-03T00:00:00")] ∧
      (write_csv_rows panel3 (commonOf panel3)).length = 3 * 2) := by
  constructor
  · intro pd hne
    refine ⟨mem_commonOf hne, ?_, ?_⟩
    · unfold write_csv_rows
      rw [List.length_flatten, List.map_map]
      rw [sum_map_const_nat ((commonOf pd).card) pd _ ?_]
      intro e he
      show (rowsForDay e (commonOf pd)).length = (commonOf pd).card
      unfold rowsForDay
      rw [length_filterMap_of_isSome _ _ ?_, length_commonIter]
      intro fp hfp
      have h1 : fp ∈ commonOf pd := mem_commonIter.1 hfp
      have h2 : fp ∈ keysOf e.2 := (mem_commonOf hne fp).1 h1 e he
      rcases (mem_keysOf_iff e.2 fp).1 h2 with ⟨v, hv⟩
      simp [hv]
    · intro r hr
      rcases write_csv_rows_mem hr with ⟨e, he, fp, bw, hbw, hreq⟩
      subst hreq
      exact ⟨e.2, by simpa using he, hbw⟩
  · refine ⟨by decide, by decide, by decide⟩

/-- C1 witness: the general statement applied to the specification's
three-day example panel. -/
theorem build_panel_common_rows_witness :
    panel3 ≠ [] ∧
      ((∀ fp, fp ∈ commonOf panel3 ↔ ∀ e ∈ panel3, fp ∈ keysOf e.2) ∧
      (write_csv_rows panel3 (commonOf panel3)).length =
        panel3.length * (commonOf panel3).card ∧
      (∀ r ∈ write_csv_rows panel3 (commonOf panel3),
        ∃ m, (r.1, m) ∈ panel3 ∧ dictGet m r.2.1 = some r.2.2.1)) :=
  ⟨by decide, build_panel_common_rows.1 panel3 (by decide)⟩

/-! ## C6 — base64 / hex round trip -/

theorem b64Val_b64Chr : ∀ v : Nat, v < 64 → b64Val (b64Chr v) = some v := by decide

theorem b64Chr_ne_pad : ∀ v : Nat, v < 64 → (b64Chr v != '=') = true := by decide

theorem hexVal_hexDig : ∀ n : Nat, n < 16 → hexVal (hexDig n) = some n := by decide

/-- The 6-bit values that `b64encodeChars` writes (proof infrastructure,
not a model of source code). -/
def sixbits : List Nat → List Nat
  | [] => []
  | [a] => [a / 4, a % 4 * 16]
  | [a, b] => [a / 4, a % 4 * 16 + b / 16, b % 16 * 4]
  | a :: b :: c :: rest =>
    a / 4 :: (a % 4 * 16 + b / 16) :: (b % 16 * 4 + c / 64) :: c % 64 :: sixbits rest

/-- Stripping the `=` padding and reading the alphabet characters back
recovers exactly the 6-bit values, whatever all-padding tail follows. -/
theorem encode_strip : ∀ bs : List Nat, (∀ b ∈ bs, b < 256) →
    ∀ extra : List Char, (∀ c ∈ extra, c = '=') →
    ((b64encodeChars bs ++ extra).takeWhile (fun c => c != '=')).filterMap b64Val =
      sixbits bs
  | [], _, extra, hex => by
    cases extra with
    | nil => rfl
    | cons c t =>
      have hc : c = '=' := hex c (by simp)
      subst hc
      simp [b64encodeChars, List.takeWhile_cons, sixbits]
  | [a], h, extra, hex => by
    have ha := h a (by simp)
    have h1 := b64Chr_ne_pad (a / 4) (by omega)
    have h2 := b64Chr_ne_pad (a % 4 * 16) (by omega)
    simp only [b64encodeChars, List.cons_append, List.takeWhile_cons, h1, h2,
      show (('=' : Char) != '=') = false from rfl, if_true, if_false]
    simp [List.filterMap_cons, b64Val_b64Chr (a / 4) (by omega),
      b64Val_b64Chr (a % 4 * 16) (by omega), sixbits]
  | [a, b], h, extra, hex => by
    have ha := h a (by simp)
    have hb := h b (by simp)
    have h1 := b64Chr_ne_pad (a / 4) (by omega)
    have h2 := b64Chr_ne_pad (a % 4 * 16 + b / 16) (by omega)
    have h3 := b64Chr_ne_pad (b % 16 * 4) (by omega)
    simp only [b64encodeChars, List.cons_append, List.takeWhile_cons, h1, h2, h3,
      show (('=' : Char) != '=') = false from rfl, if_true, if_false]
    simp [List.filterMap_cons, b64Val_b64Chr (a / 4) (by omega),
      b64Val_b64Chr (a % 4 * 16 + b / 16) (by omega),
      b64Val_b64Chr (b % 16 * 4) (by omega), sixbits]
  | a :: b :: c :: d :: rest, h, extra, hex => by
    have ha := h a (by simp)
    have hb := h b (by simp)
    have hc := h c (by simp)
    have h1 := b64Chr_ne_pad (a / 4) (by omega)
    have h2 := b64Chr_ne_pad (a % 4 * 16 + b / 16) (by omega)
    have h3 := b64Chr_ne_pad (b % 16 * 4 + c / 64) (by omega)
    have h4 := b64Chr_ne_pad (c % 64) (by omega)
    simp only [b64encodeChars, List.cons_append, List.takeWhile_cons, h1, h2, h3, h4,
      if_true]
    simp only [List.filterMap_cons, b64Val_b64Chr (a / 4) (by omega),
      b64Val_b64Chr (a % 4 * 16 + b / 16) (by omega),
      b64Val_b64Chr (b % 16 * 4 + c / 64) (by omega),
      b64Val_b64Chr (c % 64) (by omega)]
    rw [encode_strip (d :: rest) (fun x hx => h x (by simp [hx])) extra hex]
    rfl
  | [a, b, c], h, extra, hex => by
    have ha := h a (by simp)
    have hb := h b (by simp)
    have hc := h c (by simp)
    have h1 := b64Chr_ne_pad (a / 4) (by omega)
    have h2 := b64Chr_ne_pad (a % 4 * 16 + b / 16) (by omega)
    have h3 := b64Chr_ne_pad (b % 16 * 4 + c / 64) (by omega)
    have h4 := b64Chr_ne_pad (c % 64) (by omega)
    simp only [b64encodeChars, List.cons_append, List.takeWhile_cons, h1, h2, h3, h4,
      if_true]
    simp only [List.filterMap_cons, b64Val_b64Chr (a / 4) (by omega),
      b64Val_b64Chr (a % 4 * 16 + b / 16) (by omega),
      b64Val_b64Chr (b % 16 * 4 + c / 64) (by omega),
      b64Val_b64Chr (c % 64) (by omega)]
    rw [List.nil_append,
      show extra.takeWhile (fun c => c != '=') = [] from ?pad]
    · rfl
    case pad =>
      cases extra with
      | nil => rfl
      | cons c t =>
        have hc : c = '=' := hex c (by simp)
        subst hc
        simp [List.takeWhile_cons]

/-- Recombining the 6-bit values gives the original bytes back. -/
theorem b64DecodeVals_sixbits : ∀ bs : List Nat, (∀ b ∈ bs, b < 256) →
    b64DecodeVals (sixbits bs) = some bs
  | [], _ => rfl
  | [a], h => by
    have ha := h a (by simp)
    simp only [sixbits, b64DecodeVals, Option.some.injEq]
    rw [show a / 4 * 4 + a % 4 * 16 / 16 = a from by omega]
  | [a, b], h => by
    have ha := h a (by simp)
    have hb := h b (by simp)
    simp only [sixbits, b64DecodeVals, Option.some.injEq]
    rw [show a / 4 * 4 + (a % 4 * 16 + b / 16) / 16 = a from by omega,
      show (a % 4 * 16 + b / 16) % 16 * 16 + b % 16 * 4 / 4 = b from by omega]
  | [a, b, c], h => by
    have ha := h a (by simp)
    have hb := h b (by simp)
    have hc := h c (by simp)
    simp only [sixbits, b64DecodeVals, Option.map_some']
    rw [show a / 4 * 4 + (a % 4 * 16 + b / 16) / 16 = a from by omega,
      show (a % 4 * 16 + b / 16) % 16 * 16 + (b % 16 * 4 + c / 64) / 4 = b from by omega,
      show (b % 16 * 4 + c / 64) % 4 * 64 + c % 64 = c from by omega]
  | a :: b :: c :: x :: rest, h => by
    have ha := h a (by simp)
    have hb := h b (by simp)
    have hc := h c (by simp)
    simp only [sixbits, b64DecodeVals,
      b64DecodeVals_sixbits (x :: rest) (fun y hy => h y (by simp [hy])),
      Option.map_some']
    rw [show a / 4 * 4 + (a % 4 * 16 + b / 16) / 16 = a from by omega,
      show (a % 4 * 16 + b / 16) % 16 * 16 + (b % 16 * 4 + c / 64) / 4 = b from by omega,
      show (b % 16 * 4 + c / 64) % 4 * 64 + c % 64 = c from by omega]

/-- `b64_to_hex` inverts `b64encode` up to hex encoding. -/
theorem b64_to_hex_b64encode {bs : List Nat} (h : ∀ b ∈ bs, b < 256) :
    b64_to_hex (b64encode bs) = some (hexUpper bs) := by
  have hdec : pyB64Decode (b64pad (b64encode bs)) = some bs := by
    have heq : (b64pad (b64encode bs)).toList =
        b64encodeChars bs ++
          List.replicate ((4 - pyLen (b64encode bs) % 4) % 4) '=' := rfl
    unfold pyB64Decode
    rw [heq, encode_strip bs h _ (fun c hc => List.eq_of_mem_replicate hc)]
    exact b64DecodeVals_sixbits bs h
  unfold b64_to_hex
  rw [hdec]
  rfl

theorem bytesOfHexList_hexUpperChars : ∀ bs : List Nat, (∀ b ∈ bs, b < 256) →
    bytesOfHexList (hexUpperChars bs) = some bs
  | [], _ => rfl
  | b :: rest, h => by
    have hb := h b (by simp)
    simp only [hexUpperChars, bytesOfHexList, hexVal_hexDig (b / 16) (by omega),
      hexVal_hexDig (b % 16) (by omega),
      bytesOfHexList_hexUpperChars rest (fun x hx => h x (by simp [hx]))]
    rw [show b / 16 * 16 + b % 16 = b from by omega]

/-- C6: for every 20-byte sequence, base64-encoding it, running the result
through `b64_to_hex`, and decoding the hex fingerprint back to bytes
reproduces the original bytes. -/
theorem b64_hex_roundtrip (bs : List Nat) (hb : ∀ b ∈ bs, b < 256)
    (_hlen : bs.length = 20) :
    (b64_to_hex (b64encode bs)).bind pyBytesFromHex = some bs := by
  rw [b64_to_hex_b64encode hb]
  show pyBytesFromHex (hexUpper bs) = some bs
  unfold pyBytesFromHex hexUpper
  exact bytesOfHexList_hexUpperChars bs hb

/-- C6 witness: the round trip at the concrete 20-byte sequence
`0, 1, ..., 19`. -/
theorem b64_hex_roundtrip_witness :
    (∀ b ∈ List.range 20, b < 256) ∧ (List.range 20).length = 20 ∧
      (b64_to_hex (b64encode (List.range 20))).bind pyBytesFromHex =
        some (List.range 20) :=
  ⟨by decide, by decide, b64_hex_roundtrip (List.range 20) (by decide) (by decide)⟩

/-! ## C7 — hour fallback order -/

theorem fetch_consensus_from_ok :
    ∀ (pre : List Nat) (day : String) (tryHour : Nat → Except String String)
      (h : Nat) (post : List Nat) (d : String) (le : Option String),
    (∀ x ∈ pre, ∃ e, tryHour x = Except.error e) → tryHour h = Except.ok d →
    fetch_consensus_from day tryHour (pre ++ h :: post) le = Except.ok d
  | [], _, _, _, _, _, _, _, hh => by simp [fetch_consensus_from, hh]
  | x :: pre, day, t, h, post, d, le, hpre, hh => by
    rcases hpre x (by simp) with ⟨e, he⟩
    simp only [List.cons_append, fetch_consensus_from, he]
    exact fetch_consensus_from_ok pre day t h post d (some e)
      (fun y hy => hpre y (by simp [hy])) hh

theorem fetch_consensus_from_err :
    ∀ (pre : List Nat) (day : String) (tryHour : Nat → Except String String)
      (hl : Nat) (e : String) (le : Option String),
    (∀ x ∈ pre, ∃ e', tryHour x = Except.error e') → tryHour hl = Except.error e →
    fetch_consensus_from day tryHour (pre ++ [hl]) le =
      Except.error ("Failed to fetch consensus for " ++ day ++ ": " ++ e)
  | [], day, t, hl, e, le, _, he => by
    simp [fetch_consensus_from, he, strOfLastErr]
  | x :: pre, day, t, hl, e, le, hpre, he => by
    rcases hpre x (by simp) with ⟨e', he'⟩
    simp only [List.cons_append, fetch_consensus_from, he']
    exact fetch_consensus_from_err pre day t hl e (some e')
      (fun y hy => hpre y (by simp [hy])) he

/-- C7: for every candidate hour list, `fetch_consensus` tries the hours in
list order — if every hour of a prefix fails and the next hour succeeds, it
returns that hour's document (whatever later hours would do: the result
does not depend on `post`) — and if every hour fails it returns the
`Failed to fetch consensus` error wrapping the error of the last (most
recent) hour. -/
theorem fetch_consensus_order :
    (∀ (day : String) (tryHour : Nat → Except String String)
      (pre : List Nat) (h : Nat) (post : List Nat) (d : String),
      (∀ x ∈ pre, ∃ e, tryHour x = Except.error e) → tryHour h = Except.ok d →
      fetch_consensus day tryHour (pre ++ h :: post) = Except.ok d)
    ∧ (∀ (day : String) (tryHour : Nat → Except String String)
      (pre : List Nat) (hl : Nat) (e : String),
      (∀ x ∈ pre, ∃ e', tryHour x = Except.error e') → tryHour hl = Except.error e →
      fetch_consensus day tryHour (pre ++ [hl]) =
        Except.error ("Failed to fetch consensus for " ++ day ++ ": " ++ e)) :=
  ⟨fun day t pre h post d hpre hh =>
      fetch_consensus_from_ok pre day t h post d none hpre hh,
   fun day t pre hl e hpre he =>
      fetch_consensus_from_err pre day t hl e none hpre he⟩

/-- Hour oracle failing only at hour 0. -/
def hourOracleA : Nat → Except String String :=
  fun h => if h = 0 then Except.error "e0" else Except.ok "doc"

/-- Hour oracle failing at every hour. -/
def hourOracleB : Nat → Except String String := fun _ => Except.error "down"

/-- C7 witness: hours `[0, 1, 2]` with hour 0 failing return hour 1's
document; hours `[0, 1]` failing everywhere wrap the most recent error. -/
theorem fetch_consensus_order_witness :
    fetch_consensus "2023-01-01" hourOracleA ([0] ++ 1 :: [2]) = Except.ok "doc" ∧
      fetch_consensus "2023-01-01" hourOracleB ([0] ++ [1]) =
        Except.error ("Failed to fetch consensus for " ++ "2023-01-01" ++ ": " ++ "down") :=
  ⟨fetch_consensus_order.1 "2023-01-01" hourOracleA [0] 1 [2] "doc"
      (by
        intro x hx
        rcases List.mem_singleton.1 hx with rfl
        exact ⟨"e0", rfl⟩) rfl,
   fetch_consensus_order.2 "2023-01-01" hourOracleB [0] 1 "down"
      (by
        intro x hx
        exact ⟨"down", rfl⟩) rfl⟩

/-! ## C8 — a failed day aborts the run -/

theorem build_panel_days_err :
    ∀ (fetchDoc : String → Except String String) (days : List String),
    (∃ d ∈ days, ∃ e, fetchDoc d = Except.error e) →
    ∃ e', build_panel_days fetchDoc days = Except.error e'
  | _, [], h => by simp at h
  | f, d :: rest, h => by
    cases hf : f d with
    | error e => exact ⟨e, by simp [build_panel_days, hf]⟩
    | ok text =>
      have hrest : ∃ d' ∈ rest, ∃ e, f d' = Except.error e := by
        rcases h with ⟨d', hd', e, he⟩
        rcases List.mem_cons.1 hd' with rfl | hmem
        · rw [hf] at he
          cases he
        · exact ⟨d', hmem, e, he⟩
      rcases build_panel_days_err f rest hrest with ⟨e', he'⟩
      exact ⟨e', by simp [build_panel_days, hf, he']⟩

/-- C8: if any requested day fails for every candidate hour (its fetch
raises), the error propagates out of `build_panel` — which therefore never
returns a panel — and the run ends with exit code 1, no CSV written at all
(`none`: not even a partial file for the days that had succeeded) and no
warning printed. -/
theorem run_aborts_on_failed_day (fetchDoc : String → Except String String)
    (days : List String) (h : ∃ d ∈ days, ∃ e, fetchDoc d = Except.error e) :
    (∃ e, build_panel fetchDoc days = Except.error e) ∧
      main_run fetchDoc days = (1, none, false) := by
  rcases build_panel_days_err fetchDoc days h with ⟨e, he⟩
  refine ⟨⟨e, ?_⟩, ?_⟩
  · unfold build_panel
    rw [he]
  · unfold main_run build_panel
    rw [he]

/-- Day oracle: first day succeeds, every other day fails. -/
def dayOracleFail : String → Except String String := fun d =>
  if d = "2023-01-01" then Except.ok "r n AAAA x\nw Bandwidth=1"
  else Except.error "boom"

/-- C8 witness: two days where the second fails — exit 1, no CSV. -/
theorem run_aborts_on_failed_day_witness :
    (∃ d ∈ ["2023-01-01", "2023-01-02"], ∃ e,
      dayOracleFail d = Except.error e) ∧
    (∃ e, build_panel dayOracleFail ["2023-01-01", "2023-01-02"] = Except.error e) ∧
      main_run dayOracleFail ["2023-01-01", "2023-01-02"] = (1, none, false) :=
  ⟨⟨"2023-01-02", by decide, "boom", rfl⟩,
   run_aborts_on_failed_day dayOracleFail ["2023-01-01", "2023-01-02"]
     ⟨"2023-01-02", by decide, "boom", rfl⟩⟩

/-! ## C9 — empty intersection gives a header-only CSV and exit 0 -/

theorem write_csv_rows_empty_common :
    ∀ pd : List (String × Mapping), write_csv_rows pd (∅ : Finset String) = []
  | [] => rfl
  | e :: t => by
    have ih := write_csv_rows_empty_common t
    show (List.map (fun x => rowsForDay x (∅ : Finset String)) (e :: t)).flatten = []
    simp only [List.map_cons, List.flatten_cons,
      show rowsForDay e (∅ : Finset String) = [] from rfl, List.nil_append]
    exact ih

/-- C9: if every day is fetched and parsed successfully (so `build_panel`
returns a panel), the panel is non-empty, and the common set is empty
(card 0, Python's falsy set), then the run exits 0, prints the non-fatal
warning, and writes exactly the header line and zero data rows. -/
theorem run_empty_common_header_only (fetchDoc : String → Except String String)
    (days : List String) (pd : List (String × Mapping)) (common : Finset String)
    (hok : build_panel fetchDoc days = Except.ok (pd, common))
    (hne : pd ≠ []) (hcard : common.card = 0) :
    main_run fetchDoc days = (0, some [csvHeader], true) := by
  have hempty : common = ∅ := Finset.card_eq_zero.1 hcard
  subst hempty
  unfold main_run
  rw [hok]
  simp only [List.isEmpty_iff, hne, if_false]
  rw [show write_csv_lines pd (∅ : Finset String) =
    csvHeader :: (write_csv_rows pd (∅ : Finset String)).map
      (fun r => [r.1, r.2.1, toString r.2.2.1, r.2.2.2]) from rfl]
  rw [write_csv_rows_empty_common pd]
  rfl

/-- Day oracle: two successful days with disjoint relay sets. -/
def dayOracleDisjoint : String → Except String String := fun d =>
  if d = "2023-01-01" then Except.ok "r n AAAA x\nw Bandwidth=1"
  else Except.ok "r n BBBB x\nw Bandwidth=2"

/-- C9 witness: two successful days sharing no relay — exit 0, header-only
CSV, warning printed. -/
theorem run_empty_common_header_only_witness :
    build_panel dayOracleDisjoint ["2023-01-01", "2023-01-02"] =
      Except.ok ([("2023-01-01", [("000000", 1)]), ("2023-01-02", [("041041", 2)])],
        commonOf [("2023-01-01", [("000000", 1)]), ("2023-01-02", [("041041", 2)])]) ∧
    (commonOf [("2023-01-01", [("000000", 1)]),
        ("2023-01-02", [("041041", 2)])]).card = 0 ∧
    main_run dayOracleDisjoint ["2023-01-01", "2023-01-02"] =
      (0, some [csvHeader], true) :=
  ⟨rfl, by decide,
   run_empty_common_header_only dayOracleDisjoint ["2023-01-01", "2023-01-02"]
     [("2023-01-01", [("000000", 1)]), ("2023-01-02", [("041041", 2)])]
     (commonOf [("2023-01-01", [("000000", 1)]), ("2023-01-02", [("041041", 2)])])
     rfl (by decide) (by decide)⟩
